import Mathlib

/-!
Shallow embedding of the vertebral-level detection core of
scripts/sct_label_vertebrae.py (vertebral_detection, get_correlation_sum,
clean_labeled_segmentation) and theorems checking the specification's claims
about it.  Volumes are functions on finite voxel grids with rational values,
slice indices are integers, and the numpy array manipulations are translated
operation by operation.
-/

/-- The fixed anatomical table of mean adjacent inter-disc distances in mm,
transcribed from the `mean_distance` array built at the top of
`vertebral_detection` (C1/C2 -> C2/C3 onward). -/
def meanDistance : List ℚ :=
  [18, 16, 17, 16, 15.1667, 15.3333, 15.8333, 18.1667, 18.6667, 18.6667,
   19.8333, 20.6667, 21.6667, 22.3333, 23.8333, 24.1667, 26, 28.6667, 30.5,
   33.5, 33, 31.333]

/-- The scaling the code applies before use: the template is multiplied by the
z voxel spacing pz (`mean_distance = mean_distance * pz`). -/
def scaleTemplateCode (pz : ℚ) : List ℚ := meanDistance.map (fun d => d * pz)

/-- The conversion the claim describes: a physical distance of d millimeters
corresponds to d / pz slices when one slice spans pz millimeters. -/
def scaleTemplateClaim (pz : ℚ) : List ℚ := meanDistance.map (fun d => d / pz)

/-- Line 404 of the source: `z_disc_real = np.rint(z_adjustment + z_corr_max + 1)`.
`z_adjustment` has already been truncated to integers (`optimization.x.astype(int)`)
and `z_corr_max` holds integer-valued window argmax positions, so `np.rint` is the
identity on the integer sum. -/
def z_disc_real (z_adjustment z_corr_max : List ℤ) : List ℤ :=
  z_adjustment.zipWith (fun a c => a + c + 1) z_corr_max

/-- Lines 406-408 of the source: `diff = np.diff(z_disc_real)`;
`positions_to_cut = np.where(diff < 5)`; `np.delete(z_disc_real, positions_to_cut)`.
Deleting diff index i removes element i, the earlier element of a close pair; all
cuts are decided on the original array, so an element is kept iff it is the last
one or lies at least 5 below its original successor. -/
def finalizeCut : List ℤ → List ℤ
  | [] => []
  | [a] => [a]
  | a :: b :: rest =>
      if b - a < 5 then finalizeCut (b :: rest) else a :: finalizeCut (b :: rest)

/-- The indices of `zs` that survive the deletion pass of lines 406-408: the last
index, and every index whose successor element lies at least 5 above it. -/
def keepIdx (zs : List ℤ) : List ℕ :=
  (List.range zs.length).filter fun i =>
    decide (i + 1 = zs.length) || decide (5 ≤ zs.getD (i + 1) 0 - zs.getD i 0)

theorem finalizeCut_eq_keepIdx (zs : List ℤ) :
    finalizeCut zs = (keepIdx zs).map (fun i => zs.getD i 0) := by
  induction zs with
  | nil => rfl
  | cons a tail ih =>
    cases tail with
    | nil => rfl
    | cons b rest =>
      have hlen : (a :: b :: rest).length = (b :: rest).length + 1 := rfl
      have hmap :
          ((List.range (b :: rest).length).filter fun i =>
              decide (i + 1 + 1 = (b :: rest).length + 1) ||
                decide (5 ≤ (a :: b :: rest).getD (i + 1 + 1) 0 -
                  (a :: b :: rest).getD (i + 1) 0)) = keepIdx (b :: rest) := by
        apply List.filter_congr
        intro i _
        simp only [List.getD_cons_succ, keepIdx]
        congr 1
        simp [Nat.succ_inj]
      rw [keepIdx, hlen, List.range_succ_eq_map, List.filter_cons]
      have h0 : (decide (0 + 1 = (b :: rest).length + 1) ||
          decide (5 ≤ (a :: b :: rest).getD (0 + 1) 0 - (a :: b :: rest).getD 0 0))
          = decide (5 ≤ b - a) := by
        simp
      rw [h0]
      rw [List.filter_map]
      have hcomp :
          ((List.range (b :: rest).length).filter
              ((fun i => decide (i + 1 = (b :: rest).length + 1) ||
                decide (5 ≤ (a :: b :: rest).getD (i + 1) 0 -
                  (a :: b :: rest).getD i 0)) ∘ Nat.succ)).map Nat.succ
            = (keepIdx (b :: rest)).map Nat.succ := by
        rw [← hmap]
        rfl
      rw [hcomp]
      by_cases hab : b - a < 5
      · rw [if_neg (by simp only [decide_eq_true_eq]; omega)]
        rw [show finalizeCut (a :: b :: rest) = finalizeCut (b :: rest) from by
          simp [finalizeCut, hab]]
        rw [ih, List.map_map]
        exact List.map_congr_left fun i _ => (List.getD_cons_succ).symm
      · rw [if_pos (by simp only [decide_eq_true_eq]; omega)]
        rw [show finalizeCut (a :: b :: rest) = a :: finalizeCut (b :: rest) from by
          simp [finalizeCut, hab]]
        rw [ih, List.map_cons, List.map_map]
        congr 1

theorem mem_finalizeCut {x : ℤ} : ∀ {l : List ℤ}, x ∈ finalizeCut l → x ∈ l
  | [], h => h
  | [a], h => h
  | a :: b :: rest, h => by
      by_cases hab : b - a < 5
      · rw [show finalizeCut (a :: b :: rest) = finalizeCut (b :: rest) from by
          simp [finalizeCut, hab]] at h
        exact List.mem_cons_of_mem a (mem_finalizeCut h)
      · rw [show finalizeCut (a :: b :: rest) = a :: finalizeCut (b :: rest) from by
          simp [finalizeCut, hab]] at h
        rcases List.mem_cons.mp h with h1 | h2
        · exact h1 ▸ List.mem_cons_self a _
        · exact List.mem_cons_of_mem a (mem_finalizeCut h2)

/-- C10 counterexample: the anatomical distance table does not have 21 entries. -/
theorem meanDistance_not_21 : meanDistance.length ≠ 21 := by decide

/-- C10 (amended): the fixed anatomical distance template is an ordered sequence
of exactly 22 strictly positive mean inter-disc distances in millimeters. -/
theorem meanDistance_len_pos : meanDistance.length = 22 ∧ ∀ d ∈ meanDistance, 0 < d :=
  ⟨rfl, by norm_num [meanDistance, List.forall_mem_cons]⟩

/-- C9: evaluating the code's template scaling at voxel spacing pz = 2 mm: the
code multiplies the 18 mm entry by pz to get 36, while the claimed conversion of
millimeters to slices divides by pz and gives 9; the two disagree. -/
theorem scaleTemplate_bug :
    (scaleTemplateCode 2).headD 0 = 36 ∧ (scaleTemplateClaim 2).headD 0 = 9 ∧
      scaleTemplateCode 2 ≠ scaleTemplateClaim 2 := by
  refine ⟨by norm_num [scaleTemplateCode, meanDistance], by norm_num [scaleTemplateClaim, meanDistance], ?_⟩
  intro h
  have h1 : (scaleTemplateCode 2).headD 0 = (scaleTemplateClaim 2).headD 0 := by rw [h]
  norm_num [scaleTemplateCode, scaleTemplateClaim, meanDistance] at h1

/-- C6 counterexample: with approximate position 10 and optimized adjustment 0 the
finalized position is 11, not the nearest integer to 10 + 0 = 10: the code adds a
one-slice offset. -/
theorem z_disc_real_offset_cex : z_disc_real [0] [10] = [11] ∧ (11 : ℤ) ≠ 10 := by
  decide

/-- C6 (amended): each entry of `z_disc_real` equals the approximate disc position
plus the optimized adjustment plus one (the rounding is exact on these integer
values, and a fixed one-slice offset is added). -/
theorem z_disc_real_formula (adj zcm : List ℤ) (i : ℕ)
    (h1 : i < adj.length) (h2 : i < zcm.length) :
    (z_disc_real adj zcm).getD i 0 = adj.getD i 0 + zcm.getD i 0 + 1 := by
  have hlen : i < (z_disc_real adj zcm).length := by
    simp only [z_disc_real, List.length_zipWith]
    omega
  rw [List.getD_eq_getElem _ _ hlen, List.getD_eq_getElem _ _ h1, List.getD_eq_getElem _ _ h2]
  simp [z_disc_real]

/-- Witness for C6 (amended) at a concrete input. -/
theorem z_disc_real_formula_witness :
    (z_disc_real [2] [10]).getD 0 0 = [(2 : ℤ)].getD 0 0 + [(10 : ℤ)].getD 0 0 + 1 :=
  z_disc_real_formula [2] [10] 0 (by decide) (by decide)

/-- C4 counterexample: on the candidate list [10, 20, 12] the single deletion pass
returns [10, 12], whose consecutive entries differ by 2 < 5 slices. -/
theorem finalize_minspacing_cex :
    finalizeCut [10, 20, 12] = [10, 12] ∧
      ¬ List.Chain' (fun a b => 5 ≤ |b - a|) (finalizeCut [10, 20, 12]) := by
  have h : finalizeCut [10, 20, 12] = [10, 12] := rfl
  refine ⟨h, ?_⟩
  rw [h]
  intro hc
  rcases List.chain'_cons.mp hc with ⟨h1, -⟩
  have h2 : |(12 : ℤ) - 10| = 2 := by decide
  rw [h2] at h1
  omega

/-- C4 (amended): when the pre-finalization candidate positions are nondecreasing
(as produced by the ordered search windows), every pair of consecutive finalized
disc positions differs by at least 5 slices. -/
theorem finalize_minspacing_sorted (zs : List ℤ) (hs : List.Sorted (· ≤ ·) zs) :
    List.Chain' (fun a b => a + 5 ≤ b) (finalizeCut zs) := by
  induction zs with
  | nil => simp [finalizeCut]
  | cons a tail ih =>
    cases tail with
    | nil => simp [finalizeCut]
    | cons b rest =>
      have htail : List.Sorted (· ≤ ·) (b :: rest) := hs.of_cons
      by_cases hab : b - a < 5
      · rw [show finalizeCut (a :: b :: rest) = finalizeCut (b :: rest) from by
          simp [finalizeCut, hab]]
        exact ih htail
      · rw [show finalizeCut (a :: b :: rest) = a :: finalizeCut (b :: rest) from by
          simp [finalizeCut, hab]]
        rw [List.chain'_cons']
        refine ⟨?_, ih htail⟩
        intro h hh
        have hmem : h ∈ finalizeCut (b :: rest) := List.mem_of_mem_head? hh
        have hmem2 : h ∈ b :: rest := mem_finalizeCut hmem
        have hbh : b ≤ h := by
          rcases List.mem_cons.mp hmem2 with h1 | h2
          · omega
          · exact List.rel_of_sorted_cons htail h h2
        omega

/-- Witness for C4 (amended) at a concrete sorted input. -/
theorem finalize_minspacing_witness :
    List.Chain' (fun a b => a + 5 ≤ b) (finalizeCut [0, 3, 10]) :=
  finalize_minspacing_sorted [0, 3, 10] (by decide)

/-- C5 counterexample: positions 10 and 13 are closer than 5 slices; the code
keeps 13, the higher-index candidate, and removes the lower-index candidate 10. -/
theorem finalize_lower_cex :
    finalizeCut [10, 13] = [13] ∧ (10 : ℤ) ∉ finalizeCut [10, 13] := by
  decide

/-- C5 (amended): whenever two consecutive candidates are closer than 5 slices,
the lower-index candidate of the pair is the one removed: the surviving entries
are exactly those at indices that are last or whose successor lies at least 5
above, and the lower index of a conflicting pair is not among them. -/
theorem finalize_keeps (zs : List ℤ) (i : ℕ) (h1 : i + 1 < zs.length)
    (h2 : zs.getD (i + 1) 0 - zs.getD i 0 < 5) :
    i ∉ keepIdx zs ∧ finalizeCut zs = (keepIdx zs).map (fun j => zs.getD j 0) := by
  refine ⟨?_, finalizeCut_eq_keepIdx zs⟩
  intro hmem
  rw [keepIdx, List.mem_filter] at hmem
  rcases hmem with ⟨-, hp⟩
  rcases Bool.or_eq_true_iff.mp hp with hq | hq
  · rw [decide_eq_true_eq] at hq
    omega
  · rw [decide_eq_true_eq] at hq
    omega

/-- Witness for C5 (amended) at a concrete input. -/
theorem finalize_keeps_witness :
    0 ∉ keepIdx [10, 13] ∧
      finalizeCut [10, 13] = (keepIdx [10, 13]).map (fun j => [(10 : ℤ), 13].getD j 0) :=
  finalize_keeps [10, 13] 0 (by decide) (by decide)

/-- Lines 601-605 of the source: the two sequential border corrections applied to
each index (`if index[i] > nz-1: index[i] = nz-1` then `if index[i] < 0: index[i] = 0`),
clamping it into [0, nz-1]. -/
def clampIdx (nz : ℕ) (i : ℤ) : ℤ :=
  let i1 := if (nz : ℤ) - 1 < i then (nz : ℤ) - 1 else i
  if i1 < 0 then 0 else i1

/-- Lines 598-623 of the source, `get_correlation_sum`: index = truncated
`z_corr_max + z_adjustment` clamped to the image border; correlation values are
read from the profile at those indices; the effective anchor index is
`len - current_disc_adj - 1`; the constraint compares the realized spacing with
the template spacing (toward the next disc, or toward the previous disc for the
final entry, numpy index -1 wrapping to the same getD value in the only reachable
case n = 1); the result is the negated sum of
`correlation_values - (1 - correlation_values) * constraint`. -/
def get_correlation_sum (z_adjustment z_corr_max : List ℤ)
    (mean_distance_from_init_disc_append correlation_profile : List ℚ)
    (nz : ℕ) (current_disc_adj : ℕ) : ℚ :=
  let index : List ℤ :=
    List.zipWith (fun c a => clampIdx nz (c + a)) z_corr_max z_adjustment;
  let correlation_values : List ℚ :=
    index.map (fun i => correlation_profile.getD i.toNat 0);
  let n := correlation_values.length;
  let cdaRev : ℤ := (n : ℤ) - current_disc_adj - 1;
  let constraint : ℕ → ℚ := fun i =>
    if (i : ℤ) = cdaRev then 0
    else if i < n - 1 then
      |((index.getD (i + 1) 0 - index.getD i 0 : ℤ) : ℚ) -
        (mean_distance_from_init_disc_append.getD (i + 1) 0 -
          mean_distance_from_init_disc_append.getD i 0)|
    else
      |((index.getD i 0 - index.getD (i - 1) 0 : ℤ) : ℚ) -
        (mean_distance_from_init_disc_append.getD i 0 -
          mean_distance_from_init_disc_append.getD (i - 1) 0)|;
  -(((List.range n).map (fun i =>
      correlation_values.getD i 0 - (1 - correlation_values.getD i 0) * constraint i)).sum)

/-- The optimizer objective as the claim words it: the negative sum over discs of
`corr(pos_i + adj_i) - (1 - corr(pos_i + adj_i)) * constraint_i`, with each index
clamped to [0, nz-1] before the profile is read, the constraint vanishing at the
disc index matching the anchor (the anchor disc sits at position
`n - current_disc_adj - 1` of the inferior-to-superior candidate list), and
otherwise the absolute difference between the realized spacing to the neighbor
above (below for the final disc) and the template spacing for that pair. -/
def specObjective (z_adjustment z_corr_max : List ℤ)
    (template correlation_profile : List ℚ) (nz : ℕ) (current_disc_adj : ℕ) : ℚ :=
  let n := z_corr_max.length;
  let pos : ℕ → ℤ := fun i => clampIdx nz (z_corr_max.getD i 0 + z_adjustment.getD i 0);
  let corrAt : ℕ → ℚ := fun i => correlation_profile.getD (pos i).toNat 0;
  let anchorIdx : ℤ := (n : ℤ) - current_disc_adj - 1;
  let constraint : ℕ → ℚ := fun i =>
    if (i : ℤ) = anchorIdx then 0
    else if i < n - 1 then
      |((pos (i + 1) - pos i : ℤ) : ℚ) - (template.getD (i + 1) 0 - template.getD i 0)|
    else
      |((pos i - pos (i - 1) : ℤ) : ℚ) - (template.getD i 0 - template.getD (i - 1) 0)|;
  -(∑ i ∈ Finset.range n, (corrAt i - (1 - corrAt i) * constraint i))

theorem listSum_map_range (n : ℕ) (f : ℕ → ℚ) :
    ((List.range n).map f).sum = ∑ i ∈ Finset.range n, f i := by
  induction n with
  | zero => simp
  | succ m ih =>
    rw [List.range_succ, List.map_append, List.sum_append, Finset.sum_range_succ, ih]
    simp

/-- C3: the optimizer objective computed by `get_correlation_sum` equals the
negative constrained correlation sum described by the specification. -/
theorem get_correlation_sum_spec (z_adjustment z_corr_max : List ℤ)
    (template corr : List ℚ) (nz cda : ℕ)
    (hlen : z_adjustment.length = z_corr_max.length) :
    get_correlation_sum z_adjustment z_corr_max template corr nz cda
      = specObjective z_adjustment z_corr_max template corr nz cda := by
  have hlen2 : (List.zipWith (fun c a => clampIdx nz (c + a)) z_corr_max z_adjustment).length
      = z_corr_max.length := by
    rw [List.length_zipWith]; omega
  have hidx : ∀ k, k < z_corr_max.length →
      (List.zipWith (fun c a => clampIdx nz (c + a)) z_corr_max z_adjustment).getD k 0
        = clampIdx nz (z_corr_max.getD k 0 + z_adjustment.getD k 0) := by
    intro k hk
    have hz : k < (List.zipWith (fun c a => clampIdx nz (c + a)) z_corr_max z_adjustment).length := by
      omega
    rw [List.getD_eq_getElem _ _ hz, List.getElem_zipWith,
      List.getD_eq_getElem _ _ hk, List.getD_eq_getElem _ _ (by omega : k < z_adjustment.length)]
  have hcv : ∀ k, k < z_corr_max.length →
      ((List.zipWith (fun c a => clampIdx nz (c + a)) z_corr_max z_adjustment).map
          (fun i => corr.getD i.toNat 0)).getD k 0
        = corr.getD (clampIdx nz (z_corr_max.getD k 0 + z_adjustment.getD k 0)).toNat 0 := by
    intro k hk
    have hm : k < ((List.zipWith (fun c a => clampIdx nz (c + a)) z_corr_max z_adjustment).map
        (fun i => corr.getD i.toNat 0)).length := by
      rw [List.length_map]; omega
    rw [List.getD_eq_getElem _ _ hm, List.getElem_map, ← List.getD_eq_getElem _ (0 : ℤ), hidx k hk]
  simp only [get_correlation_sum, specObjective, List.length_map, hlen2]
  rw [listSum_map_range]
  congr 1
  apply Finset.sum_congr rfl
  intro i hi
  have hiL : i < z_corr_max.length := Finset.mem_range.mp hi
  rw [hcv i hiL]
  congr 1
  congr 1
  by_cases h1 : (i : ℤ) = (z_corr_max.length : ℤ) - cda - 1
  · simp only [h1, if_pos rfl, if_true]
  · rw [if_neg h1, if_neg h1]
    by_cases h2 : i < z_corr_max.length - 1
    · rw [if_pos h2, if_pos h2, hidx (i + 1) (by omega), hidx i hiL]
    · rw [if_neg h2, if_neg h2, hidx i hiL, hidx (i - 1) (by omega)]

/-- Witness for C3 at a concrete input. -/
theorem get_correlation_sum_spec_witness :
    get_correlation_sum [0, 2] [3, 9] [0, 5] [1, 0, 0, 1, 0, 0, 0, 0, 0, 0, 0, 1] 12 1
      = specObjective [0, 2] [3, 9] [0, 5] [1, 0, 0, 1, 0, 0, 0, 0, 0, 0, 0, 1] 12 1 :=
  get_correlation_sum_spec [0, 2] [3, 9] [0, 5] [1, 0, 0, 1, 0, 0, 0, 0, 0, 0, 0, 1] 12 1 rfl

/-- A straightened volume: a scalar value at every voxel of an nx x ny x nz grid. -/
def Vol (nx ny nz : ℕ) : Type := Fin nx → Fin ny → Fin nz → ℚ

/-- Lines 426-436 of the source: `ind_above_iz = np.nonzero((list_disc_z - iz).clip(0))[0]`
keeps the indices of discs strictly above slice iz; `min(ind_above_iz)` is the first
such index in list order; the slice value is that disc's level + 1, or 0 when no
disc lies above.  Discs are (z position, level value) pairs. -/
def labelForSlice : List (ℤ × ℚ) → ℤ → ℚ
  | [], _ => 0
  | p :: rest, iz => if iz < p.1 then p.2 + 1 else labelForSlice rest iz

/-- Lines 425-440 of the source: for every slice, every voxel with nonzero
segmentation value is assigned the slice's vertebral level; all other voxels are
left unchanged. -/
def labelSegmentation {nx ny nz : ℕ} (discs : List (ℤ × ℚ)) (seg : Vol nx ny nz) :
    Vol nx ny nz :=
  fun x y z => if seg x y z ≠ 0 then labelForSlice discs (z : ℤ) else seg x y z

/-- The labeling rule as the claim words it: the label of slice iz is the level of
the disc whose z position is the smallest value strictly greater than iz, plus 1,
and 0 when no disc position is strictly greater than iz. -/
def claimLabelForSlice (discs : List (ℤ × ℚ)) (iz : ℤ) : ℚ :=
  match (discs.filter (fun p => decide (iz < p.1))).argmin Prod.fst with
  | none => 0
  | some p => p.2 + 1

theorem labelForSlice_eq_claim (discs : List (ℤ × ℚ))
    (hsorted : discs.Pairwise (fun p q => p.1 < q.1)) (iz : ℤ) :
    labelForSlice discs iz = claimLabelForSlice discs iz := by
  induction discs with
  | nil => rfl
  | cons p rest ih =>
    rcases List.pairwise_cons.mp hsorted with ⟨hp, htail⟩
    by_cases h : iz < p.1
    · rw [show labelForSlice (p :: rest) iz = p.2 + 1 from by simp [labelForSlice, h]]
      rw [claimLabelForSlice, List.filter_cons_of_pos (by simpa using h)]
      have harg : ((p :: rest.filter (fun q => decide (iz < q.1))).argmin Prod.fst) = some p := by
        rw [List.argmin_cons]
        cases hc : (rest.filter (fun q => decide (iz < q.1))).argmin Prod.fst with
        | none => rfl
        | some c =>
          have hcmem : c ∈ rest.filter (fun q => decide (iz < q.1)) := List.argmin_mem hc
          have hcrest : c ∈ rest := List.mem_of_mem_filter hcmem
          have hpc : p.1 < c.1 := hp c hcrest
          show (if c.1 < p.1 then some c else some p) = some p
          rw [if_neg (not_lt_of_gt hpc)]
      rw [harg]
    · rw [show labelForSlice (p :: rest) iz = labelForSlice rest iz from by
        simp [labelForSlice, h]]
      rw [ih htail, claimLabelForSlice, claimLabelForSlice,
        List.filter_cons_of_neg (by simpa using h)]

/-- C2: when the disc list is strictly increasing in z (as the ordered search
windows produce), every voxel with nonzero mask value at slice z is assigned the
level of the disc whose z position is the smallest value strictly greater than z,
plus one, and 0 when no disc position is strictly greater than z. -/
theorem labelSegmentation_spec {nx ny nz : ℕ} (discs : List (ℤ × ℚ))
    (hsorted : discs.Pairwise (fun p q => p.1 < q.1))
    (seg : Vol nx ny nz) (x : Fin nx) (y : Fin ny) (z : Fin nz)
    (hseg : seg x y z ≠ 0) :
    labelSegmentation discs seg x y z = claimLabelForSlice discs (z : ℤ) := by
  rw [labelSegmentation, if_pos hseg, labelForSlice_eq_claim discs hsorted]

/-- Witness for C2 at a concrete input: a 1x1x4 mask that is 1 everywhere and two
discs at z = 2 (level 7) and z = 6 (level 4). -/
theorem labelSegmentation_spec_witness :
    labelSegmentation [((2 : ℤ), (7 : ℚ)), (6, 4)] (fun _ _ _ => 1) (0 : Fin 1) (0 : Fin 1)
        (3 : Fin 4)
      = claimLabelForSlice [((2 : ℤ), (7 : ℚ)), (6, 4)] ((3 : Fin 4) : ℤ) :=
  labelSegmentation_spec [((2 : ℤ), (7 : ℚ)), (6, 4)] (by decide) (fun _ _ _ => 1) 0 0 3
    (by norm_num)

/-- Python/numpy scalar indexing: a negative index wraps around once from the end
of the array, and an index that is still out of bounds raises IndexError,
modelled as none. -/
def pyGet {α : Type} (xs : List α) (i : ℤ) : Option α :=
  if 0 ≤ i then xs[i.toNat]?
  else if (-i).toNat ≤ xs.length then xs[xs.length - (-i).toNat]? else none

/-- The numpy argmin of `np.abs(peaks - current_z)`: the first index realizing
the minimal absolute distance to current_z. -/
def argminAbsIdx (peaks : List ℤ) (current_z : ℤ) : ℕ :=
  (List.range peaks.length).foldl
    (fun best i =>
      if (peaks.getD i 0 - current_z).natAbs < (peaks.getD best 0 - current_z).natAbs then i
      else best) 0

/-- Lines 325-336 of the source: template calibration from the approximate
correlation peaks.  With no peaks the template is returned uncorrected.
Otherwise `new_current_disc` is the peak nearest `current_z`; the code then reads
`z_corr_max_approx[new_current_disc + 1]`, an out-of-bounds access (IndexError,
modelled as none) whenever the nearest peak is the last one; the elif branch
reads index `new_current_disc - 1`, which in numpy wraps to the last element when
`new_current_disc` is 0.  When a spacing larger than 2 is found the whole
template is multiplied by the ratio of observed spacing to the matching template
entry, else it is returned unchanged. -/
def calibrateTemplate (z_corr_max_approx : List ℤ) (current_z : ℤ)
    (mean_distance : List ℚ) (current_disc_adj : ℕ) : Option (List ℚ) :=
  if z_corr_max_approx.isEmpty then some mean_distance
  else do
    let ncd := argminAbsIdx z_corr_max_approx current_z
    let pCur ← pyGet z_corr_max_approx (ncd : ℤ)
    let pNext ← pyGet z_corr_max_approx ((ncd : ℤ) + 1)
    if 2 < pNext - pCur then
      let m ← pyGet mean_distance (current_disc_adj : ℤ)
      pure (mean_distance.map fun d => (((pNext - pCur : ℤ) : ℚ) / m) * d)
    else
      let pPrev ← pyGet z_corr_max_approx ((ncd : ℤ) - 1)
      if 2 < pCur - pPrev then
        let m ← pyGet mean_distance ((current_disc_adj : ℤ) - 1)
        pure (mean_distance.map fun d => (((pCur - pPrev : ℤ) : ℚ) / m) * d)
      else pure mean_distance

/-- C8: with zero detected peaks the calibration returns the uncorrected template,
but with a single detected peak (the nearest peak is the last one, with no peak
above it) the read of peak index `new_current_disc + 1` is out of bounds and the
stage fails with an IndexError instead of returning a template. -/
theorem calibrateTemplate_single_peak :
    calibrateTemplate [] 30 meanDistance 2 = some meanDistance ∧
      calibrateTemplate [30] 30 meanDistance 2 = none := by
  constructor <;> rfl

/-- A linear congruential generator step: the explicit, seedable random source of
the optimizer model. -/
def lcgNext (s : ℕ) : ℕ := (1103515245 * s + 12345) % 2147483648

/-- One random perturbation of the adjustment vector: each coordinate moves by
-1, 0 or +1 (stepsize 1), drawn from the seeded stream; returns the advanced
stream state and the perturbed vector. -/
def perturbVec (s : ℕ) (v : List ℤ) : ℕ × List ℤ :=
  v.foldr
    (fun a acc =>
      let s2 := lcgNext acc.1;
      (s2, (a + (s2 % 3 : ℕ) - 1) :: acc.2))
    (s, [])

/-- One pass of unit-step coordinate descent on the objective, the local
minimization applied after each random jump. -/
def localImprove (obj : List ℤ → ℚ) (v : List ℤ) : List ℤ :=
  (List.range v.length).foldl
    (fun cur i =>
      let up := cur.set i (cur.getD i 0 + 1);
      let down := cur.set i (cur.getD i 0 - 1);
      if obj up < obj cur then up else if obj down < obj cur then down else cur)
    v

/-- Modelled from the spec: `scipy.optimize.basinhopping` is external library
code, so the global stochastic search of section 4.5 is embedded per the spec's
description: starting from the all-zero adjustment vector, repeatedly perturb the
current vector by a random unit step from an explicitly seeded random stream,
locally optimize the perturbed point on `get_correlation_sum`, accept or reject
by a Metropolis-like criterion, and keep the best vector seen over a bounded
number of iterations. -/
def basinhoppingModel (seed niter : ℕ) (z_corr_max : List ℤ)
    (template correlation_profile : List ℚ) (nz : ℕ) (current_disc_adj : ℕ) : List ℤ :=
  let obj : List ℤ → ℚ := fun adj =>
    get_correlation_sum adj z_corr_max template correlation_profile nz current_disc_adj;
  let step : ℕ × List ℤ × List ℤ → ℕ × List ℤ × List ℤ := fun st =>
    let s2cand := perturbVec st.1 st.2.1;
    let loc := localImprove obj s2cand.2;
    let s3 := lcgNext s2cand.1;
    let cur2 := if obj loc < obj st.2.1 ∨ s3 % 100 < 10 then loc else st.2.1;
    let best2 := if obj loc < obj st.2.2 then loc else st.2.2;
    (s3, cur2, best2);
  (step^[niter] (seed, List.replicate z_corr_max.length 0, List.replicate z_corr_max.length 0)).2.2

/-- C7: the optimizer is a pure function of its inputs and the explicit seed: two
runs with identical inputs and the same seed return identical adjustment vectors
(and hence identical disc positions downstream). -/
theorem basinhoppingModel_deterministic (seed1 seed2 niter : ℕ) (z_corr_max : List ℤ)
    (template correlation_profile : List ℚ) (nz : ℕ) (current_disc_adj : ℕ)
    (hseed : seed1 = seed2) :
    basinhoppingModel seed1 niter z_corr_max template correlation_profile nz current_disc_adj
      = basinhoppingModel seed2 niter z_corr_max template correlation_profile nz
          current_disc_adj := by
  rw [hseed]

/-- Witness for C7 at a concrete input. -/
theorem basinhoppingModel_deterministic_witness :
    basinhoppingModel 42 2 [3] [0] [1, 0, 0, 1, 0, 0] 6 0
      = basinhoppingModel 42 2 [3] [0] [1, 0, 0, 1, 0, 0] 6 0 :=
  basinhoppingModel_deterministic 42 42 2 [3] [0] [1, 0, 0, 1, 0, 0] 6 0 rfl

/-- All voxel coordinates of an nx x ny x nz grid. -/
def allVoxels (nx ny nz : ℕ) : List (Fin nx × Fin ny × Fin nz) :=
  (List.finRange nx).flatMap fun x =>
    (List.finRange ny).flatMap fun y =>
      (List.finRange nz).map fun z => (x, y, z)

/-- The voxels within Chebyshev distance 2 of (x, y, z): the structuring
neighborhood of the radius-2 morphological dilation. -/
def ball2 {nx ny nz : ℕ} (x : Fin nx) (y : Fin ny) (z : Fin nz) :
    List (Fin nx × Fin ny × Fin nz) :=
  (allVoxels nx ny nz).filter fun w =>
    decide (((w.1 : ℤ) - (x : ℤ)).natAbs ≤ 2) &&
      decide (((w.2.1 : ℤ) - (y : ℤ)).natAbs ≤ 2) &&
      decide (((w.2.2 : ℤ) - (z : ℤ)).natAbs ≤ 2)

/-- Modelled from the spec: `sct_maths -dilate 2` is repository code outside the
given sources; per section 4.8 it is the grayscale morphological dilation of the
labeled volume by a fixed radius of 2 voxels, i.e. the maximum of the volume over
the radius-2 neighborhood of each voxel. -/
def dilate2 {nx ny nz : ℕ} (a : Vol nx ny nz) : Vol nx ny nz :=
  fun x y z => (ball2 x y z).foldr (fun w m => max (a w.1 w.2.1 w.2.2) m) (a x y z)

/-- Lines 628-656 of the source, `clean_labeled_segmentation`.  The external
`sct_maths` calls are modelled from the spec: `-mul` is element-wise
multiplication, `-dilate 2` is `dilate2`, `-bin` maps nonzero values to 1.  The
final loop overwrites, at every voxel where the mask differs from the binarized
product (`data_diff = data_seg - data_label_bin`), the product value with the
dilated value. -/
def clean_labeled_segmentation {nx ny nz : ℕ} (labeled seg : Vol nx ny nz) :
    Vol nx ny nz :=
  let mulv : Vol nx ny nz := fun x y z => labeled x y z * seg x y z;
  let dil : Vol nx ny nz := dilate2 labeled;
  let binv : Vol nx ny nz := fun x y z => if mulv x y z ≠ 0 then 1 else 0;
  fun x y z => if seg x y z - binv x y z ≠ 0 then dil x y z else mulv x y z

theorem foldr_max_eq_seed_or_mem {α : Type} (f : α → ℚ) (s : ℚ) (l : List α) :
    l.foldr (fun w m => max (f w) m) s = s ∨
      ∃ w ∈ l, l.foldr (fun w m => max (f w) m) s = f w := by
  induction l with
  | nil => exact Or.inl rfl
  | cons a tail ih =>
    rcases max_choice (f a) (tail.foldr (fun w m => max (f w) m) s) with h | h
    · exact Or.inr ⟨a, List.mem_cons_self a tail, h⟩
    · rcases ih with h2 | ⟨w, hw, h2⟩
      · exact Or.inl (by rw [List.foldr_cons, h, h2])
      · exact Or.inr ⟨w, List.mem_cons_of_mem a hw, by rw [List.foldr_cons, h, h2]⟩

theorem le_foldr_max {α : Type} (f : α → ℚ) (s : ℚ) (l : List α) (w : α) (hw : w ∈ l) :
    f w ≤ l.foldr (fun w m => max (f w) m) s := by
  induction l with
  | nil => cases hw
  | cons a tail ih =>
    rcases List.mem_cons.mp hw with h | h
    · rw [h, List.foldr_cons]
      exact le_max_left _ _
    · rw [List.foldr_cons]
      exact le_trans (ih h) (le_max_right _ _)

/-- C1 counterexample: on a 1x1x1 grid whose mask is 1 at its only voxel and
whose labeled volume is 0 everywhere, the cleaned output is 0 at a voxel where
the mask is nonzero: the output support is not the mask support. -/
theorem clean_support_cex :
    ¬ (∀ x y z, clean_labeled_segmentation (fun _ _ _ => 0) (fun _ _ _ => 1) x y z ≠ 0 ↔
        (fun (_ : Fin 1) (_ : Fin 1) (_ : Fin 1) => (1 : ℚ)) x y z ≠ 0) := by
  intro h
  have h2 := (h 0 0 0).mpr (by norm_num)
  apply h2
  have hd : dilate2 (fun _ _ _ => (0 : ℚ)) (0 : Fin 1) (0 : Fin 1) (0 : Fin 1) = 0 := by
    rw [dilate2]
    generalize ball2 (0 : Fin 1) (0 : Fin 1) (0 : Fin 1) = l
    induction l with
    | nil => rfl
    | cons a tail ih =>
      rw [List.foldr_cons, ih]
      exact max_self 0
  show clean_labeled_segmentation (fun _ _ _ => 0) (fun _ _ _ => 1) 0 0 0 = 0
  simp only [clean_labeled_segmentation]
  norm_num [hd]

/-- C1 (amended): for a binary mask and a labeled volume with natural-number
values, the cleaned output is nonzero at a voxel exactly when the mask is nonzero
there and some voxel within the dilation radius 2 (the voxel itself included)
carries a nonzero label; every output value is a nonnegative integer.  In
particular output support is contained in mask support, but a mask voxel farther
than the dilation radius from every labeled voxel keeps value 0. -/
theorem clean_support {nx ny nz : ℕ} (labeled seg : Vol nx ny nz)
    (hseg : ∀ x y z, seg x y z = 0 ∨ seg x y z = 1)
    (hlab : ∀ x y z, ∃ n : ℕ, labeled x y z = n)
    (x : Fin nx) (y : Fin ny) (z : Fin nz) :
    (clean_labeled_segmentation labeled seg x y z ≠ 0 ↔
      (seg x y z ≠ 0 ∧ (labeled x y z ≠ 0 ∨
        ∃ w ∈ ball2 x y z, labeled w.1 w.2.1 w.2.2 ≠ 0))) ∧
    ∃ n : ℕ, clean_labeled_segmentation labeled seg x y z = n := by
  rcases hseg x y z with h0 | h1
  · have hclean : clean_labeled_segmentation labeled seg x y z = 0 := by
      simp only [clean_labeled_segmentation, h0, mul_zero]
      norm_num
    rw [hclean]
    exact ⟨by simp [h0], ⟨0, by norm_num⟩⟩
  · obtain ⟨m, hm⟩ := hlab x y z
    by_cases hl : labeled x y z = 0
    · have hclean : clean_labeled_segmentation labeled seg x y z
          = (ball2 x y z).foldr (fun w mx => max (labeled w.1 w.2.1 w.2.2) mx) 0 := by
        simp only [clean_labeled_segmentation, h1, hl, zero_mul, dilate2]
        norm_num
      rw [hclean]
      constructor
      · constructor
        · intro hne
          refine ⟨by rw [h1]; norm_num, Or.inr ?_⟩
          rcases foldr_max_eq_seed_or_mem
              (fun w : Fin nx × Fin ny × Fin nz => labeled w.1 w.2.1 w.2.2) 0
              (ball2 x y z) with hh | ⟨w, hw, hh⟩
          · exact absurd hh hne
          · exact ⟨w, hw, fun hzz => hne (by rw [hh]; exact hzz)⟩
        · rintro ⟨-, hlx | ⟨w, hw, hwne⟩⟩
          · exact absurd hl hlx
          · obtain ⟨k, hk⟩ := hlab w.1 w.2.1 w.2.2
            have hkpos : (0 : ℚ) < labeled w.1 w.2.1 w.2.2 := by
              rw [hk]
              have hk0 : k ≠ 0 := by
                intro hk0
                apply hwne
                rw [hk, hk0]
                norm_num
              exact_mod_cast Nat.pos_of_ne_zero hk0
            have hle := le_foldr_max
              (fun w : Fin nx × Fin ny × Fin nz => labeled w.1 w.2.1 w.2.2) 0
              (ball2 x y z) w hw
            intro hzero
            rw [hzero] at hle
            exact absurd (lt_of_lt_of_le hkpos hle) (lt_irrefl 0)
      · rcases foldr_max_eq_seed_or_mem
            (fun w : Fin nx × Fin ny × Fin nz => labeled w.1 w.2.1 w.2.2) 0
            (ball2 x y z) with hh | ⟨w, hw, hh⟩
        · exact ⟨0, by rw [hh]; norm_num⟩
        · obtain ⟨k, hk⟩ := hlab w.1 w.2.1 w.2.2
          exact ⟨k, by rw [hh]; exact hk⟩
    · have hclean : clean_labeled_segmentation labeled seg x y z = labeled x y z := by
        simp only [clean_labeled_segmentation, h1, mul_one]
        norm_num
        intro hcond
        exact absurd (by rw [if_neg hl]; norm_num :
          (1 - if labeled x y z = 0 then (0 : ℚ) else 1) = 0) hcond
      rw [hclean]
      exact ⟨⟨fun _ => ⟨by rw [h1]; norm_num, Or.inl hl⟩, fun _ => hl⟩, ⟨m, hm⟩⟩

/-- Witness for C1 (amended) on a 1x1x1 grid with mask 1 and label 3. -/
theorem clean_support_witness :
    (clean_labeled_segmentation (fun _ _ _ => (3 : ℚ)) (fun _ _ _ => 1) (0 : Fin 1)
          (0 : Fin 1) (0 : Fin 1) ≠ 0 ↔
      ((fun (_ : Fin 1) (_ : Fin 1) (_ : Fin 1) => (1 : ℚ)) 0 0 0 ≠ 0 ∧
        ((fun (_ : Fin 1) (_ : Fin 1) (_ : Fin 1) => (3 : ℚ)) 0 0 0 ≠ 0 ∨
          ∃ w ∈ ball2 (0 : Fin 1) (0 : Fin 1) (0 : Fin 1),
            (fun (_ : Fin 1) (_ : Fin 1) (_ : Fin 1) => (3 : ℚ)) w.1 w.2.1 w.2.2 ≠ 0))) ∧
    ∃ n : ℕ, clean_labeled_segmentation (fun _ _ _ => (3 : ℚ)) (fun _ _ _ => 1) (0 : Fin 1)
        (0 : Fin 1) (0 : Fin 1) = n :=
  clean_support (fun _ _ _ => (3 : ℚ)) (fun _ _ _ => 1)
    (fun _ _ _ => Or.inr rfl) (fun _ _ _ => ⟨3, by norm_num⟩) 0 0 0
